import Mathlib

/-!
Verification of the v2v-vm-validations caching / session-lifecycle core.

Shallow embedding of the Go sources of `nirarg/v2v-vm-validations`:

* `internal/persistent` (CacheKey, memory caches, inflight tracker,
  Inspector.InspectWithVirt) — file `src/unnamed/part_005`;
* `internal/inspection/virt_inspector.go` (VirtInspector.Inspect, the
  per-disk nbdkit session orchestration);
* `internal/inspection/virt_v2v_open.go` (V2VSession.Close).

Pure data flow is embedded as Lean functions; the external collaborators
(durable DB, the external inspection binary, nbdkit session open /
readiness) are parameters describing their observable behaviour, and the
side effects the claims talk about (session opens / closes, DB reads /
writes, tool invocations) are recorded in explicit event traces.
The mutex-protected inflight tracker is embedded as a small-step
interleaving state machine, one step per atomic region of the Go code.
-/

namespace V2V

/-! ## CacheKey (src/unnamed/part_005, lines 23-39) -/

/-- Go `CacheKey` with `VMName` and `SnapshotName`, as in the Go struct. -/
structure CacheKey where
  VMName : String
  SnapshotName : String
deriving DecidableEq, Repr

/-- Go `CacheKey.String()`: `fmt.Sprintf("%s:%s", k.VMName, k.SnapshotName)`. -/
def CacheKey.toKeyString (k : CacheKey) : String :=
  k.VMName ++ ":" ++ k.SnapshotName

/-- Go `CacheKey.Hash()` is `hex(sha256(k.String()))`; the hash function is
an external library, abstracted as the parameter `h`. -/
def CacheKey.hashWith (h : String → String) (k : CacheKey) : String :=
  h k.toKeyString

/-! ## Memory cache (src/unnamed/part_005, lines 290-342)

The Go `virtInspectorMemoryCache` is a `map[string]*types.VirtInspectorXML`
guarded by an RWMutex; `get` reads `cache[key.String()]` (nil = absent) and
`set` writes `cache[key.String()] = data`.  The map is embedded as a
function from canonical key strings to `Option T`. -/

/-- The volatile (in-memory) cache tier: canonical key string ↦ value. -/
def MemCache (T : Type) := String → Option T

/-- Go `memoryCache.get`: look up under the canonical string of the key. -/
def memGet {T : Type} (c : MemCache T) (k : CacheKey) : Option T :=
  c k.toKeyString

/-- Go `memoryCache.set`: store under the canonical string of the key. -/
def memSet {T : Type} (c : MemCache T) (k : CacheKey) (v : T) : MemCache T :=
  fun s => if s = k.toKeyString then some v else c s

/-! ## Durable store (the `DB` interface, src/unnamed/part_005, lines 41-57)

The durable tier is an external collaborator; its observable behaviour for
one call is a pair `(value?, error?)` for `Get` and an `error?` for `Set`,
keyed by the cache key's canonical string. -/

/-- Behaviour of a `DB` implementation: `get` returns `(cached, err)` as the
Go interface does (`cached = none` ↔ nil pointer), `setErr` is the error
returned by `Set` (`none` = success). -/
structure DBModel (T : Type) where
  get : String → Option T × Option String
  setErr : String → T → Option String

/-! ## Events recorded by the Inspector's executor path -/

/-- Observable external actions of `InspectWithVirt`'s work function. -/
inductive InspEvent where
  | dbGet
  | dbSet
  | inspectCall
deriving DecidableEq, Repr

/-! ## The executor's work function
(src/unnamed/part_005, lines 120-179, the closure passed to `do`)

Go control flow, in order:
1. double-check memory cache — hit ⇒ return `(cached, nil)`;
2. if `db != nil`: `cached, err := db.GetVirtInspectorXML(ctx, key)`;
   `err != nil` ⇒ warn and fall through; `cached != nil` ⇒
   `memCache.set(key, cached)`, return `(cached, nil)`;
3. `result, err := virtInspector.Inspect(...)`; `err != nil` ⇒ return
   `(nil, err)`;
4. `memCache.set(key, result)`; if `db != nil` then
   `db.SetVirtInspectorXML(ctx, key, result)`, error only warned;
5. return `(result, nil)`.

`inspectRes` is the behaviour of the external `virtInspector.Inspect` call
for this request.  The function returns the Go `(value, error)` pair, the
updated memory cache, and the trace of external events. -/
def virtWorkFn {T : Type} (db : Option (DBModel T)) (inspectRes : Except String T)
    (key : CacheKey) (mem : MemCache T) :
    (Option T × Option String) × MemCache T × List InspEvent :=
  match memGet mem key with
  | some v => ((some v, none), mem, [])
  | none =>
    let fullCompute : List InspEvent → (Option T × Option String) × MemCache T × List InspEvent :=
      fun evs =>
        match inspectRes with
        | .error e => ((none, some e), mem, evs ++ [.inspectCall])
        | .ok v =>
          let mem' := memSet mem key v
          match db with
          | some d =>
            match d.setErr key.toKeyString v with
            | some _ => ((some v, none), mem', evs ++ [.inspectCall, .dbSet])
            | none => ((some v, none), mem', evs ++ [.inspectCall, .dbSet])
          | none => ((some v, none), mem', evs ++ [.inspectCall])
    match db with
    | some d =>
      match d.get key.toKeyString with
      | (_, some _) => fullCompute [.dbGet]
      | (some v, none) => ((some v, none), memSet mem key v, [.dbGet])
      | (none, none) => fullCompute [.dbGet]
    | none => fullCompute []

/-- Go `Inspector.InspectWithVirt` (src/unnamed/part_005, lines 95-189) for a
single (uncontended) caller: check the memory cache, return on hit; on miss
the inflight tracker finds no registered computation, so the caller becomes
the executor and runs the work function synchronously, and `do` hands its
`(value, error)` pair back unchanged. -/
def inspectWithVirt {T : Type} (db : Option (DBModel T)) (inspectRes : Except String T)
    (key : CacheKey) (mem : MemCache T) :
    (Option T × Option String) × MemCache T × List InspEvent :=
  match memGet mem key with
  | some v => ((some v, none), mem, [])
  | none => virtWorkFn db inspectRes key mem

/-! ## VirtInspector.Inspect: per-disk nbdkit session orchestration
(src/internal/inspection/virt_inspector.go, lines 40-210)

`UseVirtV2VOpen` is the compile-time constant `false` (line 16), so every
call takes the nbdkit branch: one session per entry of
`diskInfo.BaseDiskPaths`, opened in order, with a bounded readiness wait
after each open.  `OpenWithNBDKitVDDK`, `WaitForReady` and `Close` are
external collaborators; each disk's observable behaviour is a
`DiskBehavior`, sessions are identified by their disk index, and session
side effects are recorded as `SessEvent`s in program order. -/

/-- Go constant `UseVirtV2VOpen` (virt_inspector.go line 16). -/
def UseVirtV2VOpen : Bool := false

/-- Observable behaviour of one disk's session setup: does
`OpenWithNBDKitVDDK` fail, and if not, does `WaitForReady` fail? -/
structure DiskBehavior where
  openErr : Option String
  readyErr : Option String
deriving DecidableEq, Repr

/-- Session-lifecycle events of one `VirtInspector.Inspect` call. -/
inductive SessEvent where
  | openSess (i : Nat)
  | readySess (i : Nat)
  | closeSess (i : Nat)
  | runTool
deriving DecidableEq, Repr

/-- Errors of `VirtInspector.Inspect`, by stage, mirroring the Go error
strings: `"failed to start NBDkit session for disk %d: %w"`,
`"NBD server not ready for disk %d: %w"`, `"virt-inspector failed ..."`,
`"failed to parse inspection output: %w"`. -/
inductive InspErr where
  | sessionOpen (disk : Nat) (msg : String)
  | sessionReady (disk : Nat) (msg : String)
  | toolFail (msg : String)
  | parseFail (msg : String)
deriving DecidableEq, Repr

/-- Go loop `for _, session := range nbdkitSessions { session.Close() }`. -/
def closeAll (opened : List Nat) : List SessEvent :=
  opened.map SessEvent.closeSess

/-- The session-opening loop of the nbdkit branch (virt_inspector.go lines
103-140): for each disk in order, open a session (on failure close every
session opened so far and return the error annotated with the disk index),
append it to `nbdkitSessions`, then wait for readiness (on failure close
all sessions in `nbdkitSessions` — including the one just opened — and
return the error annotated with the disk index). -/
def openLoop : List DiskBehavior → Nat → List Nat → List SessEvent →
    Except InspErr (List Nat) × List SessEvent
  | [], _, opened, evs => (.ok opened, evs)
  | d :: rest, idx, opened, evs =>
    match d.openErr with
    | some e => (.error (.sessionOpen idx e), evs ++ closeAll opened)
    | none =>
      let opened' := opened ++ [idx]
      let evs' := evs ++ [SessEvent.openSess idx]
      match d.readyErr with
      | some e => (.error (.sessionReady idx e), evs' ++ closeAll opened')
      | none => openLoop rest (idx + 1) opened' (evs' ++ [SessEvent.readySess idx])

/-- Go `VirtInspector.Inspect` (virt_inspector.go lines 40-210), nbdkit branch:
run the session loop; on success register `sessionCloser` via `defer` (so it
runs on every later exit path), invoke the external tool, parse its output,
and return.  `toolRes` is the behaviour of the external `virt-inspector`
invocation, `parseRes` the behaviour of parsing its output. -/
def virtInspect {α T : Type} (disks : List DiskBehavior)
    (toolRes : Except String α) (parseRes : α → Except String T) :
    Except InspErr T × List SessEvent :=
  match openLoop disks 0 [] [] with
  | (.error e, evs) => (.error e, evs)
  | (.ok opened, evs) =>
    match toolRes with
    | .error e => (.error (.toolFail e), evs ++ [SessEvent.runTool] ++ closeAll opened)
    | .ok out =>
      match parseRes out with
      | .error e => (.error (.parseFail e), evs ++ [SessEvent.runTool] ++ closeAll opened)
      | .ok v => (.ok v, evs ++ [SessEvent.runTool] ++ closeAll opened)

/-! ## V2VSession.Close (src/internal/inspection/virt_v2v_open.go, lines 86-101)

```go
func (s *V2VSession) Close() {
    if s == nil { return }
    if s.cmd != nil && s.cmd.Process != nil {
        _ = s.cmd.Process.Kill()
        _, _ = s.cmd.Process.Wait()
    }
    if s.authFile != "" { _ = os.Remove(s.authFile) }
}
```

A possibly-nil receiver is `Option V2VSession`; `cmd`/`cmd.Process` being
nil (a handle whose setup only partially completed) is `cmd = none`.  The
operating-system resources the call touches are a set of live processes and
a set of existing files; `Kill`/`Wait`/`Remove` errors are ignored by the
Go code, so killing an absent process or removing an absent file leaves the
state unchanged.  The Lean function is total: every case of the Go body is
covered, which is the embedding of "never panics". -/

/-- A virt-v2v-open session handle. -/
structure V2VSession where
  NBDURL : String
  cmd : Option Nat
  authFile : String
deriving DecidableEq, Repr

/-- The OS resources `Close` can release: live processes and files. -/
structure OSState where
  procs : List Nat
  files : List String
deriving DecidableEq, Repr

/-- Go `Kill` plus `Wait` on process `p`, errors ignored: `p` is no longer live;
if `p` was not live the state is unchanged. -/
def killWait (st : OSState) (p : Nat) : OSState :=
  { st with procs := st.procs.filter (· ≠ p) }

/-- Go `os.Remove f`, error ignored: `f` no longer exists; if `f` did not
exist the state is unchanged. -/
def removeFile (st : OSState) (f : String) : OSState :=
  { st with files := st.files.filter (· ≠ f) }

/-- Go `V2VSession.Close` on a possibly-nil receiver. -/
def sessionClose (s : Option V2VSession) (st : OSState) : OSState :=
  match s with
  | none => st
  | some sess =>
    let st1 := match sess.cmd with
      | some p => killWait st p
      | none => st
    if sess.authFile = "" then st1 else removeFile st1 sess.authFile

/-! ## The inflight tracker as an interleaving state machine
(src/unnamed/part_005, lines 344-401)

`inflightTracker.do` for one fixed key, executed by any number of
goroutines (threads), each calling `do` once.  Each constructor of `PC`
is one atomic region of the Go code:

* `start` → the mutex-protected region lines 372-387: look the key up in
  `t.calls`; if present become a waiter on that call, otherwise allocate a
  fresh `inflightCall`, `wg.Add(1)`, store it in the table, and become its
  executor;
* `running cid` → line 390, `call.val, call.err = fn()`: the owner (and
  only the owner) writes the call record's result;
* `ranFn cid` → line 393, `call.wg.Done()`: mark the record completed;
* `removing cid` → the mutex-protected delete, lines 396-398, then the
  executor's return of `(call.val, call.err, false)`;
* `waiting cid` → line 378, `call.wg.Wait()` followed by the return of
  `(call.val, call.err, true)`: enabled only once the record is done;
* `finished cid v e w` → `do` has returned `(v, e, w)`; `cid` is ghost
  data recording which call record the return came from.

`fns i` is the `(value, error)` pair thread `i`'s work function would
produce; call records carry a ghost `owner` field naming the registering
thread.  A schedule is a list of thread ids; stepping a thread whose next
action is not enabled (a waiter whose call is not done, a finished thread)
leaves the state unchanged. -/

/-- Go `inflightCall[T]` (`val`, `err`, and the WaitGroup's state as
`done`), plus the ghost `owner` field. `result = none` means `val`/`err`
have not been written yet. -/
structure CallRec (T : Type) where
  owner : Nat
  result : Option (T × Option String)
  done : Bool
deriving DecidableEq, Repr

/-- Program counter of one thread inside `inflightTracker.do`. -/
inductive PC (T : Type) where
  | start
  | running (cid : Nat)
  | ranFn (cid : Nat)
  | removing (cid : Nat)
  | waiting (cid : Nat)
  | finished (cid : Nat) (v : T) (e : Option String) (wasWaiter : Bool)
deriving DecidableEq, Repr

/-- Tracker state for one key: `table` is the entry `t.calls[keyStr]`
(`none` = key absent), `calls` the heap of call records ever allocated
(records outlive their table entry, as Go waiters keep a pointer after the
delete), `nextCid` the next fresh record id, `pcs` each thread's position. -/
structure TrackerSt (T : Type) where
  table : Option Nat
  calls : Nat → Option (CallRec T)
  nextCid : Nat
  pcs : Nat → PC T

/-- Pointwise function update (used for `pcs` and `calls`). -/
def upd {β : Type} (f : Nat → β) (i : Nat) (x : β) : Nat → β :=
  fun j => if j = i then x else f j

/-- One atomic step of thread `i`. -/
def tstep {T : Type} (fns : Nat → T × Option String) (s : TrackerSt T) (i : Nat) :
    TrackerSt T :=
  match s.pcs i with
  | .start =>
    match s.table with
    | some cid => { s with pcs := upd s.pcs i (.waiting cid) }
    | none =>
      { table := some s.nextCid
        calls := upd s.calls s.nextCid (some ⟨i, none, false⟩)
        nextCid := s.nextCid + 1
        pcs := upd s.pcs i (.running s.nextCid) }
  | .running cid =>
    { s with
      calls := upd s.calls cid ((s.calls cid).map fun r => { r with result := some (fns i) })
      pcs := upd s.pcs i (.ranFn cid) }
  | .ranFn cid =>
    { s with
      calls := upd s.calls cid ((s.calls cid).map fun r => { r with done := true })
      pcs := upd s.pcs i (.removing cid) }
  | .removing cid =>
    match s.calls cid with
    | some r =>
      match r.result with
      | some ve => { s with table := none, pcs := upd s.pcs i (.finished cid ve.1 ve.2 false) }
      | none => s
    | none => s
  | .waiting cid =>
    match s.calls cid with
    | some r =>
      if r.done then
        match r.result with
        | some ve => { s with pcs := upd s.pcs i (.finished cid ve.1 ve.2 true) }
        | none => s
      else s
    | none => s
  | .finished _ _ _ _ => s

/-- Initial tracker state: empty table, no records, every thread at the
entry of `do`. -/
def tinit (T : Type) : TrackerSt T :=
  { table := none, calls := fun _ => none, nextCid := 0, pcs := fun _ => PC.start }

/-- Run a schedule (list of thread ids) from the initial state. -/
def trun {T : Type} (fns : Nat → T × Option String) (sched : List Nat) : TrackerSt T :=
  sched.foldl (tstep fns) (tinit T)

/-- Reading an updated function at the written point. -/
theorem upd_self {β : Type} (f : Nat → β) (i : Nat) (x : β) : upd f i x i = x :=
  if_pos rfl

/-- Reading an updated function elsewhere. -/
theorem upd_ne {β : Type} (f : Nat → β) (i : Nat) (x : β) {j : Nat} (h : j ≠ i) :
    upd f i x j = f j :=
  if_neg h

/-- Inductive invariant of the tracker machine, for a fixed `fns`.

The fields say: record ids are below `nextCid`; a written result is always
the owner's work-function value; owners are distinct across records (each
thread registers at most once); the table only points at allocated
records; a thread at `start` or `waiting` owns no record / not the record
it waits on; a thread at `running` / `ranFn` / `removing cid` is the owner
of `cid`, the record's fields match its progress, and the table still
points at `cid` (the executor deregisters its own entry, and only at the
`removing` step); a finished executor's pair is its record's stored
result; a finished waiter's pair is the stored result of a completed
record it does not own. -/
structure TInv {T : Type} (fns : Nat → T × Option String) (s : TrackerSt T) : Prop where
  callsLt : ∀ cid r, s.calls cid = some r → cid < s.nextCid
  resultOk : ∀ cid r, s.calls cid = some r →
    r.result = none ∨ r.result = some (fns r.owner)
  ownerInj : ∀ cid cid' r r', s.calls cid = some r → s.calls cid' = some r' →
    r.owner = r'.owner → cid = cid'
  tableSome : ∀ cid, s.table = some cid → ∃ r, s.calls cid = some r
  startOwns : ∀ i, s.pcs i = .start → ∀ cid r, s.calls cid = some r → r.owner ≠ i
  waitOwns : ∀ i cid, s.pcs i = .waiting cid →
    ∃ r, s.calls cid = some r ∧ r.owner ≠ i
  runInv : ∀ i cid, s.pcs i = .running cid → ∃ r, s.calls cid = some r ∧
    r.owner = i ∧ r.result = none ∧ r.done = false ∧ s.table = some cid
  ranInv : ∀ i cid, s.pcs i = .ranFn cid → ∃ r, s.calls cid = some r ∧
    r.owner = i ∧ r.result = some (fns i) ∧ r.done = false ∧ s.table = some cid
  remInv : ∀ i cid, s.pcs i = .removing cid → ∃ r, s.calls cid = some r ∧
    r.owner = i ∧ r.result = some (fns i) ∧ r.done = true ∧ s.table = some cid
  finFInv : ∀ i cid v e, s.pcs i = .finished cid v e false → ∃ r,
    s.calls cid = some r ∧ r.owner = i ∧ r.result = some (v, e)
  finTInv : ∀ i cid v e, s.pcs i = .finished cid v e true → ∃ r,
    s.calls cid = some r ∧ r.owner ≠ i ∧ r.result = some (v, e) ∧ r.done = true

/-- The initial state satisfies the invariant. -/
theorem tinit_inv {T : Type} (fns : Nat → T × Option String) : TInv fns (tinit T) := by
  constructor <;> intros <;> simp_all [tinit]

end V2V
namespace V2V

/-- Invariant preservation: a thread at `start` finds a registered call and
becomes its waiter (Go lines 373-380, the lookup under the mutex). -/
theorem tinv_becomeWaiter {T : Type} {fns : Nat → T × Option String} {s : TrackerSt T}
    {i cid : Nat} (hI : TInv fns s) (h : s.pcs i = .start) (ht : s.table = some cid) :
    TInv fns { s with pcs := upd s.pcs i (.waiting cid) } := by
  obtain ⟨rc, hrc⟩ := hI.tableSome cid ht
  refine ⟨hI.callsLt, hI.resultOk, hI.ownerInj, hI.tableSome, ?_, ?_, ?_, ?_, ?_, ?_, ?_⟩
  · intro j hj c r hr
    dsimp only at hj hr
    rcases eq_or_ne j i with rfl | hji
    · rw [upd_self] at hj; simp at hj
    · rw [upd_ne _ _ _ hji] at hj
      exact hI.startOwns j hj c r hr
  · intro j c hj
    dsimp only at hj ⊢
    rcases eq_or_ne j i with rfl | hji
    · rw [upd_self] at hj
      injection hj with hc; subst hc
      exact ⟨rc, hrc, hI.startOwns j h cid rc hrc⟩
    · rw [upd_ne _ _ _ hji] at hj
      exact hI.waitOwns j c hj
  · intro j c hj
    dsimp only at hj ⊢
    rcases eq_or_ne j i with rfl | hji
    · rw [upd_self] at hj; simp at hj
    · rw [upd_ne _ _ _ hji] at hj
      exact hI.runInv j c hj
  · intro j c hj
    dsimp only at hj ⊢
    rcases eq_or_ne j i with rfl | hji
    · rw [upd_self] at hj; simp at hj
    · rw [upd_ne _ _ _ hji] at hj
      exact hI.ranInv j c hj
  · intro j c hj
    dsimp only at hj ⊢
    rcases eq_or_ne j i with rfl | hji
    · rw [upd_self] at hj; simp at hj
    · rw [upd_ne _ _ _ hji] at hj
      exact hI.remInv j c hj
  · intro j c v e hj
    dsimp only at hj ⊢
    rcases eq_or_ne j i with rfl | hji
    · rw [upd_self] at hj; simp at hj
    · rw [upd_ne _ _ _ hji] at hj
      exact hI.finFInv j c v e hj
  · intro j c v e hj
    dsimp only at hj ⊢
    rcases eq_or_ne j i with rfl | hji
    · rw [upd_self] at hj; simp at hj
    · rw [upd_ne _ _ _ hji] at hj
      exact hI.finTInv j c v e hj

/-- Invariant preservation: a thread at `start` finds no registered call,
allocates a fresh record and registers it (Go lines 383-387). -/
theorem tinv_register {T : Type} {fns : Nat → T × Option String} {s : TrackerSt T}
    {i : Nat} (hI : TInv fns s) (h : s.pcs i = .start) (ht : s.table = none) :
    TInv fns { s with table := some s.nextCid,
                      calls := upd s.calls s.nextCid (some ⟨i, none, false⟩),
                      nextCid := s.nextCid + 1,
                      pcs := upd s.pcs i (.running s.nextCid) } := by
  have hfresh : s.calls s.nextCid = none := by
    cases hc : s.calls s.nextCid with
    | none => rfl
    | some r => exact absurd (hI.callsLt _ r hc) (lt_irrefl _)
  refine ⟨?_, ?_, ?_, ?_, ?_, ?_, ?_, ?_, ?_, ?_, ?_⟩
  · intro c r hr
    dsimp only at hr ⊢
    rcases eq_or_ne c s.nextCid with rfl | hc
    · omega
    · rw [upd_ne _ _ _ hc] at hr
      exact Nat.lt_succ_of_lt (hI.callsLt c r hr)
  · intro c r hr
    dsimp only at hr
    rcases eq_or_ne c s.nextCid with rfl | hc
    · rw [upd_self] at hr
      injection hr with hr0; subst hr0
      left; rfl
    · rw [upd_ne _ _ _ hc] at hr
      exact hI.resultOk c r hr
  · intro c c' r r' hr hr' ho
    dsimp only at hr hr'
    rcases eq_or_ne c s.nextCid with rfl | hc
    · rcases eq_or_ne c' s.nextCid with rfl | hc'
      · rfl
      · rw [upd_self] at hr
        rw [upd_ne _ _ _ hc'] at hr'
        injection hr with hr0; subst hr0
        exact absurd ho.symm (hI.startOwns i h c' r' hr')
    · rcases eq_or_ne c' s.nextCid with rfl | hc'
      · rw [upd_self] at hr'
        rw [upd_ne _ _ _ hc] at hr
        injection hr' with hr0; subst hr0
        exact absurd ho (hI.startOwns i h c r hr)
      · rw [upd_ne _ _ _ hc] at hr
        rw [upd_ne _ _ _ hc'] at hr'
        exact hI.ownerInj c c' r r' hr hr' ho
  · intro c hc
    dsimp only at hc ⊢
    injection hc with hc0
    refine ⟨⟨i, none, false⟩, ?_⟩
    rw [← hc0, upd_self]
  · intro j hj c r hr
    dsimp only at hj hr
    rcases eq_or_ne j i with rfl | hji
    · rw [upd_self] at hj; simp at hj
    · rw [upd_ne _ _ _ hji] at hj
      rcases eq_or_ne c s.nextCid with rfl | hc
      · rw [upd_self] at hr
        injection hr with hr0; subst hr0
        exact fun hcon => hji hcon.symm
      · rw [upd_ne _ _ _ hc] at hr
        exact hI.startOwns j hj c r hr
  · intro j c hj
    dsimp only at hj ⊢
    rcases eq_or_ne j i with rfl | hji
    · rw [upd_self] at hj; simp at hj
    · rw [upd_ne _ _ _ hji] at hj
      obtain ⟨r, hr, hro⟩ := hI.waitOwns j c hj
      have hc : c ≠ s.nextCid := by
        intro hcon
        rw [hcon, hfresh] at hr
        exact Option.noConfusion hr
      exact ⟨r, by rw [upd_ne _ _ _ hc]; exact hr, hro⟩
  · intro j c hj
    dsimp only at hj ⊢
    rcases eq_or_ne j i with rfl | hji
    · rw [upd_self] at hj
      injection hj with hc; subst hc
      exact ⟨⟨j, none, false⟩, by rw [upd_self], rfl, rfl, rfl, rfl⟩
    · rw [upd_ne _ _ _ hji] at hj
      obtain ⟨r, _, _, _, _, htab⟩ := hI.runInv j c hj
      rw [ht] at htab
      exact Option.noConfusion htab
  · intro j c hj
    dsimp only at hj
    rcases eq_or_ne j i with rfl | hji
    · rw [upd_self] at hj; simp at hj
    · rw [upd_ne _ _ _ hji] at hj
      obtain ⟨r, _, _, _, _, htab⟩ := hI.ranInv j c hj
      rw [ht] at htab
      exact Option.noConfusion htab
  · intro j c hj
    dsimp only at hj
    rcases eq_or_ne j i with rfl | hji
    · rw [upd_self] at hj; simp at hj
    · rw [upd_ne _ _ _ hji] at hj
      obtain ⟨r, _, _, _, _, htab⟩ := hI.remInv j c hj
      rw [ht] at htab
      exact Option.noConfusion htab
  · intro j c v e hj
    dsimp only at hj ⊢
    rcases eq_or_ne j i with rfl | hji
    · rw [upd_self] at hj; simp at hj
    · rw [upd_ne _ _ _ hji] at hj
      obtain ⟨r, hr, hro, hres⟩ := hI.finFInv j c v e hj
      have hc : c ≠ s.nextCid := by
        intro hcon
        rw [hcon, hfresh] at hr
        exact Option.noConfusion hr
      exact ⟨r, by rw [upd_ne _ _ _ hc]; exact hr, hro, hres⟩
  · intro j c v e hj
    dsimp only at hj ⊢
    rcases eq_or_ne j i with rfl | hji
    · rw [upd_self] at hj; simp at hj
    · rw [upd_ne _ _ _ hji] at hj
      obtain ⟨r, hr, hro, hres, hdn⟩ := hI.finTInv j c v e hj
      have hc : c ≠ s.nextCid := by
        intro hcon
        rw [hcon, hfresh] at hr
        exact Option.noConfusion hr
      exact ⟨r, by rw [upd_ne _ _ _ hc]; exact hr, hro, hres, hdn⟩

end V2V
namespace V2V

/-- Invariant preservation: the executor runs the work function and writes
`call.val, call.err` (Go line 390). -/
theorem tinv_writeResult {T : Type} {fns : Nat → T × Option String} {s : TrackerSt T}
    {i cid : Nat} (hI : TInv fns s) (h : s.pcs i = .running cid) :
    TInv fns { s with calls := upd s.calls cid
                        ((s.calls cid).map fun r => { r with result := some (fns i) }),
                      pcs := upd s.pcs i (.ranFn cid) } := by
  obtain ⟨rr, hrr, hown, hres, hdone, htab⟩ := hI.runInv i cid h
  have hcup : (s.calls cid).map (fun r => { r with result := some (fns i) })
      = some { rr with result := some (fns i) } := by rw [hrr]; rfl
  rw [hcup]
  refine ⟨?_, ?_, ?_, ?_, ?_, ?_, ?_, ?_, ?_, ?_, ?_⟩
  · intro c r hr
    dsimp only at hr ⊢
    rcases eq_or_ne c cid with rfl | hc
    · exact hI.callsLt _ rr hrr
    · rw [upd_ne _ _ _ hc] at hr
      exact hI.callsLt c r hr
  · intro c r hr
    dsimp only at hr
    rcases eq_or_ne c cid with rfl | hc
    · rw [upd_self] at hr
      injection hr with hr0; subst hr0
      right
      show some (fns i) = some (fns rr.owner)
      rw [hown]
    · rw [upd_ne _ _ _ hc] at hr
      exact hI.resultOk c r hr
  · intro c c' r r' hr hr' ho
    dsimp only at hr hr'
    by_cases hc : c = cid <;> by_cases hc' : c' = cid
    · rw [hc, hc']
    · rw [hc] at hr ⊢
      rw [upd_self] at hr
      rw [upd_ne _ _ _ hc'] at hr'
      injection hr with hr0; subst hr0
      exact hI.ownerInj cid c' rr r' hrr hr' ho
    · rw [hc'] at hr' ⊢
      rw [upd_self] at hr'
      rw [upd_ne _ _ _ hc] at hr
      injection hr' with hr0; subst hr0
      exact hI.ownerInj c cid r rr hr hrr ho
    · rw [upd_ne _ _ _ hc] at hr
      rw [upd_ne _ _ _ hc'] at hr'
      exact hI.ownerInj c c' r r' hr hr' ho
  · intro c hc
    dsimp only at hc ⊢
    obtain ⟨r0, hr0⟩ := hI.tableSome c hc
    rcases eq_or_ne c cid with rfl | hcc
    · exact ⟨_, upd_self _ _ _⟩
    · exact ⟨r0, by rw [upd_ne _ _ _ hcc]; exact hr0⟩
  · intro j hj c r hr
    dsimp only at hj hr
    rcases eq_or_ne j i with rfl | hji
    · rw [upd_self] at hj; simp at hj
    · rw [upd_ne _ _ _ hji] at hj
      rcases eq_or_ne c cid with rfl | hc
      · rw [upd_self] at hr
        injection hr with hr0; subst hr0
        exact hI.startOwns j hj c rr hrr
      · rw [upd_ne _ _ _ hc] at hr
        exact hI.startOwns j hj c r hr
  · intro j c hj
    dsimp only at hj ⊢
    rcases eq_or_ne j i with rfl | hji
    · rw [upd_self] at hj; simp at hj
    · rw [upd_ne _ _ _ hji] at hj
      obtain ⟨r, hr, hro⟩ := hI.waitOwns j c hj
      rcases eq_or_ne c cid with rfl | hc
      · have hre : rr = r := by
          rw [hrr] at hr; exact Option.some.inj hr
        refine ⟨{ rr with result := some (fns i) }, upd_self _ _ _, ?_⟩
        show rr.owner ≠ j
        rw [hre]; exact hro
      · exact ⟨r, by rw [upd_ne _ _ _ hc]; exact hr, hro⟩
  · intro j c hj
    dsimp only at hj ⊢
    rcases eq_or_ne j i with rfl | hji
    · rw [upd_self] at hj; simp at hj
    · rw [upd_ne _ _ _ hji] at hj
      obtain ⟨r, hr, ho2, hres2, hd2, htab2⟩ := hI.runInv j c hj
      rcases eq_or_ne c cid with rfl | hc
      · have hre : rr = r := by
          rw [hrr] at hr; exact Option.some.inj hr
        rw [hre, ho2] at hown
        exact absurd hown hji
      · exact ⟨r, by rw [upd_ne _ _ _ hc]; exact hr, ho2, hres2, hd2, htab2⟩
  · intro j c hj
    dsimp only at hj ⊢
    rcases eq_or_ne j i with rfl | hji
    · rw [upd_self] at hj
      injection hj with hc0; subst hc0
      exact ⟨{ rr with result := some (fns j) }, upd_self _ _ _, hown, rfl, hdone, htab⟩
    · rw [upd_ne _ _ _ hji] at hj
      obtain ⟨r, hr, ho2, hres2, hd2, htab2⟩ := hI.ranInv j c hj
      rcases eq_or_ne c cid with rfl | hc
      · have hre : rr = r := by
          rw [hrr] at hr; exact Option.some.inj hr
        rw [hre, ho2] at hown
        exact absurd hown hji
      · exact ⟨r, by rw [upd_ne _ _ _ hc]; exact hr, ho2, hres2, hd2, htab2⟩
  · intro j c hj
    dsimp only at hj ⊢
    rcases eq_or_ne j i with rfl | hji
    · rw [upd_self] at hj; simp at hj
    · rw [upd_ne _ _ _ hji] at hj
      obtain ⟨r, hr, ho2, hres2, hd2, htab2⟩ := hI.remInv j c hj
      rcases eq_or_ne c cid with rfl | hc
      · have hre : rr = r := by
          rw [hrr] at hr; exact Option.some.inj hr
        rw [hre, ho2] at hown
        exact absurd hown hji
      · exact ⟨r, by rw [upd_ne _ _ _ hc]; exact hr, ho2, hres2, hd2, htab2⟩
  · intro j c v e hj
    dsimp only at hj ⊢
    rcases eq_or_ne j i with rfl | hji
    · rw [upd_self] at hj; simp at hj
    · rw [upd_ne _ _ _ hji] at hj
      obtain ⟨r, hr, ho2, hres2⟩ := hI.finFInv j c v e hj
      rcases eq_or_ne c cid with rfl | hc
      · have hre : rr = r := by
          rw [hrr] at hr; exact Option.some.inj hr
        rw [← hre] at hres2
        rw [hres] at hres2
        exact Option.noConfusion hres2
      · exact ⟨r, by rw [upd_ne _ _ _ hc]; exact hr, ho2, hres2⟩
  · intro j c v e hj
    dsimp only at hj ⊢
    rcases eq_or_ne j i with rfl | hji
    · rw [upd_self] at hj; simp at hj
    · rw [upd_ne _ _ _ hji] at hj
      obtain ⟨r, hr, ho2, hres2, hd2⟩ := hI.finTInv j c v e hj
      rcases eq_or_ne c cid with rfl | hc
      · have hre : rr = r := by
          rw [hrr] at hr; exact Option.some.inj hr
        rw [← hre] at hres2
        rw [hres] at hres2
        exact Option.noConfusion hres2
      · exact ⟨r, by rw [upd_ne _ _ _ hc]; exact hr, ho2, hres2, hd2⟩

end V2V
namespace V2V

/-- Invariant preservation: the executor signals completion, `wg.Done()`
(Go line 393). -/
theorem tinv_markDone {T : Type} {fns : Nat → T × Option String} {s : TrackerSt T}
    {i cid : Nat} (hI : TInv fns s) (h : s.pcs i = .ranFn cid) :
    TInv fns { s with calls := upd s.calls cid
                        ((s.calls cid).map fun r => { r with done := true }),
                      pcs := upd s.pcs i (.removing cid) } := by
  obtain ⟨rr, hrr, hown, hres, hdone, htab⟩ := hI.ranInv i cid h
  have hcup : (s.calls cid).map (fun r => { r with done := true })
      = some { rr with done := true } := by rw [hrr]; rfl
  rw [hcup]
  refine ⟨?_, ?_, ?_, ?_, ?_, ?_, ?_, ?_, ?_, ?_, ?_⟩
  · intro c r hr
    dsimp only at hr ⊢
    rcases eq_or_ne c cid with rfl | hc
    · exact hI.callsLt _ rr hrr
    · rw [upd_ne _ _ _ hc] at hr
      exact hI.callsLt c r hr
  · intro c r hr
    dsimp only at hr
    rcases eq_or_ne c cid with rfl | hc
    · rw [upd_self] at hr
      injection hr with hr0; subst hr0
      right
      show rr.result = some (fns rr.owner)
      rw [hown, hres]
    · rw [upd_ne _ _ _ hc] at hr
      exact hI.resultOk c r hr
  · intro c c' r r' hr hr' ho
    dsimp only at hr hr'
    by_cases hc : c = cid <;> by_cases hc' : c' = cid
    · rw [hc, hc']
    · rw [hc] at hr ⊢
      rw [upd_self] at hr
      rw [upd_ne _ _ _ hc'] at hr'
      injection hr with hr0; subst hr0
      exact hI.ownerInj cid c' rr r' hrr hr' ho
    · rw [hc'] at hr' ⊢
      rw [upd_self] at hr'
      rw [upd_ne _ _ _ hc] at hr
      injection hr' with hr0; subst hr0
      exact hI.ownerInj c cid r rr hr hrr ho
    · rw [upd_ne _ _ _ hc] at hr
      rw [upd_ne _ _ _ hc'] at hr'
      exact hI.ownerInj c c' r r' hr hr' ho
  · intro c hc
    dsimp only at hc ⊢
    obtain ⟨r0, hr0⟩ := hI.tableSome c hc
    rcases eq_or_ne c cid with rfl | hcc
    · exact ⟨_, upd_self _ _ _⟩
    · exact ⟨r0, by rw [upd_ne _ _ _ hcc]; exact hr0⟩
  · intro j hj c r hr
    dsimp only at hj hr
    rcases eq_or_ne j i with rfl | hji
    · rw [upd_self] at hj; simp at hj
    · rw [upd_ne _ _ _ hji] at hj
      rcases eq_or_ne c cid with rfl | hc
      · rw [upd_self] at hr
        injection hr with hr0; subst hr0
        exact hI.startOwns j hj c rr hrr
      · rw [upd_ne _ _ _ hc] at hr
        exact hI.startOwns j hj c r hr
  · intro j c hj
    dsimp only at hj ⊢
    rcases eq_or_ne j i with rfl | hji
    · rw [upd_self] at hj; simp at hj
    · rw [upd_ne _ _ _ hji] at hj
      obtain ⟨r, hr, hro⟩ := hI.waitOwns j c hj
      rcases eq_or_ne c cid with rfl | hc
      · have hre : rr = r := by
          rw [hrr] at hr; exact Option.some.inj hr
        refine ⟨{ rr with done := true }, upd_self _ _ _, ?_⟩
        show rr.owner ≠ j
        rw [hre]; exact hro
      · exact ⟨r, by rw [upd_ne _ _ _ hc]; exact hr, hro⟩
  · intro j c hj
    dsimp only at hj ⊢
    rcases eq_or_ne j i with rfl | hji
    · rw [upd_self] at hj; simp at hj
    · rw [upd_ne _ _ _ hji] at hj
      obtain ⟨r, hr, ho2, hres2, hd2, htab2⟩ := hI.runInv j c hj
      rcases eq_or_ne c cid with rfl | hc
      · have hre : rr = r := by
          rw [hrr] at hr; exact Option.some.inj hr
        rw [hre, ho2] at hown
        exact absurd hown hji
      · exact ⟨r, by rw [upd_ne _ _ _ hc]; exact hr, ho2, hres2, hd2, htab2⟩
  · intro j c hj
    dsimp only at hj ⊢
    rcases eq_or_ne j i with rfl | hji
    · rw [upd_self] at hj; simp at hj
    · rw [upd_ne _ _ _ hji] at hj
      obtain ⟨r, hr, ho2, hres2, hd2, htab2⟩ := hI.ranInv j c hj
      rcases eq_or_ne c cid with rfl | hc
      · have hre : rr = r := by
          rw [hrr] at hr; exact Option.some.inj hr
        rw [hre, ho2] at hown
        exact absurd hown hji
      · exact ⟨r, by rw [upd_ne _ _ _ hc]; exact hr, ho2, hres2, hd2, htab2⟩
  · intro j c hj
    dsimp only at hj ⊢
    rcases eq_or_ne j i with rfl | hji
    · rw [upd_self] at hj
      injection hj with hc0; subst hc0
      refine ⟨{ rr with done := true }, upd_self _ _ _, hown, ?_, rfl, htab⟩
      show rr.result = some (fns j)
      exact hres
    · rw [upd_ne _ _ _ hji] at hj
      obtain ⟨r, hr, ho2, hres2, hd2, htab2⟩ := hI.remInv j c hj
      rcases eq_or_ne c cid with rfl | hc
      · have hre : rr = r := by
          rw [hrr] at hr; exact Option.some.inj hr
        rw [hre, ho2] at hown
        exact absurd hown hji
      · exact ⟨r, by rw [upd_ne _ _ _ hc]; exact hr, ho2, hres2, hd2, htab2⟩
  · intro j c v e hj
    dsimp only at hj ⊢
    rcases eq_or_ne j i with rfl | hji
    · rw [upd_self] at hj; simp at hj
    · rw [upd_ne _ _ _ hji] at hj
      obtain ⟨r, hr, ho2, hres2⟩ := hI.finFInv j c v e hj
      rcases eq_or_ne c cid with rfl | hc
      · have hre : rr = r := by
          rw [hrr] at hr; exact Option.some.inj hr
        rw [hre, ho2] at hown
        exact absurd hown hji
      · exact ⟨r, by rw [upd_ne _ _ _ hc]; exact hr, ho2, hres2⟩
  · intro j c v e hj
    dsimp only at hj ⊢
    rcases eq_or_ne j i with rfl | hji
    · rw [upd_self] at hj; simp at hj
    · rw [upd_ne _ _ _ hji] at hj
      obtain ⟨r, hr, ho2, hres2, hd2⟩ := hI.finTInv j c v e hj
      rcases eq_or_ne c cid with rfl | hc
      · have hre : rr = r := by
          rw [hrr] at hr; exact Option.some.inj hr
        rw [← hre] at hd2
        rw [hdone] at hd2
        exact Bool.noConfusion hd2
      · exact ⟨r, by rw [upd_ne _ _ _ hc]; exact hr, ho2, hres2, hd2⟩

end V2V
namespace V2V

/-- Invariant preservation: the executor deletes the key from the table
under the mutex and returns `(call.val, call.err, false)` (Go lines 396-400). -/
theorem tinv_deregister {T : Type} {fns : Nat → T × Option String} {s : TrackerSt T}
    {i cid : Nat} {r : CallRec T} {ve : T × Option String}
    (hI : TInv fns s) (h : s.pcs i = .removing cid)
    (hr : s.calls cid = some r) (hres : r.result = some ve) :
    TInv fns { s with table := none,
                      pcs := upd s.pcs i (.finished cid ve.1 ve.2 false) } := by
  obtain ⟨rr, hrr, hown, hresr, hdoner, htab⟩ := hI.remInv i cid h
  have hre : rr = r := by rw [hrr] at hr; exact Option.some.inj hr
  refine ⟨hI.callsLt, hI.resultOk, hI.ownerInj, ?_, ?_, ?_, ?_, ?_, ?_, ?_, ?_⟩
  · intro c hc
    dsimp only at hc
    exact Option.noConfusion hc
  · intro j hj c r0 hr0
    dsimp only at hj hr0
    rcases eq_or_ne j i with rfl | hji
    · rw [upd_self] at hj; simp at hj
    · rw [upd_ne _ _ _ hji] at hj
      exact hI.startOwns j hj c r0 hr0
  · intro j c hj
    dsimp only at hj ⊢
    rcases eq_or_ne j i with rfl | hji
    · rw [upd_self] at hj; simp at hj
    · rw [upd_ne _ _ _ hji] at hj
      exact hI.waitOwns j c hj
  · intro j c hj
    dsimp only at hj ⊢
    rcases eq_or_ne j i with rfl | hji
    · rw [upd_self] at hj; simp at hj
    · rw [upd_ne _ _ _ hji] at hj
      obtain ⟨r2, hr2, ho2, _, _, htab2⟩ := hI.runInv j c hj
      rw [htab] at htab2
      injection htab2 with hc0
      subst hc0
      have hre2 : rr = r2 := by rw [hrr] at hr2; exact Option.some.inj hr2
      rw [hre2, ho2] at hown
      exact absurd hown hji
  · intro j c hj
    dsimp only at hj ⊢
    rcases eq_or_ne j i with rfl | hji
    · rw [upd_self] at hj; simp at hj
    · rw [upd_ne _ _ _ hji] at hj
      obtain ⟨r2, hr2, ho2, _, _, htab2⟩ := hI.ranInv j c hj
      rw [htab] at htab2
      injection htab2 with hc0
      subst hc0
      have hre2 : rr = r2 := by rw [hrr] at hr2; exact Option.some.inj hr2
      rw [hre2, ho2] at hown
      exact absurd hown hji
  · intro j c hj
    dsimp only at hj ⊢
    rcases eq_or_ne j i with rfl | hji
    · rw [upd_self] at hj; simp at hj
    · rw [upd_ne _ _ _ hji] at hj
      obtain ⟨r2, hr2, ho2, _, _, htab2⟩ := hI.remInv j c hj
      rw [htab] at htab2
      injection htab2 with hc0
      subst hc0
      have hre2 : rr = r2 := by rw [hrr] at hr2; exact Option.some.inj hr2
      rw [hre2, ho2] at hown
      exact absurd hown hji
  · intro j c v e hj
    dsimp only at hj ⊢
    rcases eq_or_ne j i with rfl | hji
    · rw [upd_self] at hj
      injection hj with hc0 hv0 he0 hb0
      subst hc0; subst hv0; subst he0
      refine ⟨r, hr, ?_, ?_⟩
      · rw [← hre]; exact hown
      · rw [hres]
    · rw [upd_ne _ _ _ hji] at hj
      exact hI.finFInv j c v e hj
  · intro j c v e hj
    dsimp only at hj ⊢
    rcases eq_or_ne j i with rfl | hji
    · rw [upd_self] at hj; simp at hj
    · rw [upd_ne _ _ _ hji] at hj
      exact hI.finTInv j c v e hj

/-- Invariant preservation: a waiter observes the completion signal and
returns the stored `(call.val, call.err, true)` (Go lines 378-380). -/
theorem tinv_waitDone {T : Type} {fns : Nat → T × Option String} {s : TrackerSt T}
    {i cid : Nat} {r : CallRec T} {ve : T × Option String}
    (hI : TInv fns s) (h : s.pcs i = .waiting cid)
    (hr : s.calls cid = some r) (hd : r.done = true) (hres : r.result = some ve) :
    TInv fns { s with pcs := upd s.pcs i (.finished cid ve.1 ve.2 true) } := by
  obtain ⟨r2, hr2, hro⟩ := hI.waitOwns i cid h
  have hre : r2 = r := by rw [hr2] at hr; exact Option.some.inj hr
  refine ⟨hI.callsLt, hI.resultOk, hI.ownerInj, hI.tableSome, ?_, ?_, ?_, ?_, ?_, ?_, ?_⟩
  · intro j hj c r0 hr0
    dsimp only at hj hr0
    rcases eq_or_ne j i with rfl | hji
    · rw [upd_self] at hj; simp at hj
    · rw [upd_ne _ _ _ hji] at hj
      exact hI.startOwns j hj c r0 hr0
  · intro j c hj
    dsimp only at hj ⊢
    rcases eq_or_ne j i with rfl | hji
    · rw [upd_self] at hj; simp at hj
    · rw [upd_ne _ _ _ hji] at hj
      exact hI.waitOwns j c hj
  · intro j c hj
    dsimp only at hj ⊢
    rcases eq_or_ne j i with rfl | hji
    · rw [upd_self] at hj; simp at hj
    · rw [upd_ne _ _ _ hji] at hj
      exact hI.runInv j c hj
  · intro j c hj
    dsimp only at hj ⊢
    rcases eq_or_ne j i with rfl | hji
    · rw [upd_self] at hj; simp at hj
    · rw [upd_ne _ _ _ hji] at hj
      exact hI.ranInv j c hj
  · intro j c hj
    dsimp only at hj ⊢
    rcases eq_or_ne j i with rfl | hji
    · rw [upd_self] at hj; simp at hj
    · rw [upd_ne _ _ _ hji] at hj
      exact hI.remInv j c hj
  · intro j c v e hj
    dsimp only at hj ⊢
    rcases eq_or_ne j i with rfl | hji
    · rw [upd_self] at hj; simp at hj
    · rw [upd_ne _ _ _ hji] at hj
      exact hI.finFInv j c v e hj
  · intro j c v e hj
    dsimp only at hj ⊢
    rcases eq_or_ne j i with rfl | hji
    · rw [upd_self] at hj
      injection hj with hc0 hv0 he0 hb0
      subst hc0; subst hv0; subst he0
      refine ⟨r, hr, ?_, ?_, hd⟩
      · rw [← hre]; exact hro
      · rw [hres]
    · rw [upd_ne _ _ _ hji] at hj
      exact hI.finTInv j c v e hj

/-- One step of any thread preserves the tracker invariant. -/
theorem tstep_inv {T : Type} {fns : Nat → T × Option String} {s : TrackerSt T}
    (hI : TInv fns s) (i : Nat) : TInv fns (tstep fns s i) := by
  cases h : s.pcs i with
  | start =>
    cases ht : s.table with
    | some cid =>
      have he : tstep fns s i = { s with pcs := upd s.pcs i (.waiting cid) } := by
        unfold tstep; rw [h, ht]
      rw [he]
      exact tinv_becomeWaiter hI h ht
    | none =>
      have he : tstep fns s i
          = { s with table := some s.nextCid,
                     calls := upd s.calls s.nextCid (some ⟨i, none, false⟩),
                     nextCid := s.nextCid + 1,
                     pcs := upd s.pcs i (.running s.nextCid) } := by
        unfold tstep; rw [h, ht]
      rw [he]
      exact tinv_register hI h ht
  | running cid =>
    have he : tstep fns s i
        = { s with calls := upd s.calls cid
                     ((s.calls cid).map fun r => { r with result := some (fns i) }),
                   pcs := upd s.pcs i (.ranFn cid) } := by
      unfold tstep; rw [h]
    rw [he]
    exact tinv_writeResult hI h
  | ranFn cid =>
    have he : tstep fns s i
        = { s with calls := upd s.calls cid
                     ((s.calls cid).map fun r => { r with done := true }),
                   pcs := upd s.pcs i (.removing cid) } := by
      unfold tstep; rw [h]
    rw [he]
    exact tinv_markDone hI h
  | removing cid =>
    obtain ⟨rr, hrr, hown, hresr, hdoner, htab⟩ := hI.remInv i cid h
    have he : tstep fns s i
        = { s with table := none,
                   pcs := upd s.pcs i (.finished cid (fns i).1 (fns i).2 false) } := by
      simp only [tstep, h, hrr, hresr]
    rw [he]
    have h2 := tinv_deregister hI h hrr hresr
    exact h2
  | waiting cid =>
    obtain ⟨r2, hr2, hro⟩ := hI.waitOwns i cid h
    cases hd : r2.done with
    | false =>
      have he : tstep fns s i = s := by
        simp only [tstep, h, hr2, hd]; rfl
      rw [he]
      exact hI
    | true =>
      cases hresc : r2.result with
      | none =>
        have he : tstep fns s i = s := by
          simp only [tstep, h, hr2, hd, hresc]; rfl
        rw [he]
        exact hI
      | some ve =>
        have he : tstep fns s i
            = { s with pcs := upd s.pcs i (.finished cid ve.1 ve.2 true) } := by
          simp only [tstep, h, hr2, hd, hresc]; rfl
        rw [he]
        exact tinv_waitDone hI h hr2 hd hresc
  | finished cid v e w =>
    have he : tstep fns s i = s := by
      unfold tstep; rw [h]
    rw [he]
    exact hI

/-- Folding any schedule preserves the invariant. -/
theorem tfold_inv {T : Type} {fns : Nat → T × Option String} (sched : List Nat)
    {s : TrackerSt T} (hI : TInv fns s) :
    TInv fns (List.foldl (tstep fns) s sched) := by
  induction sched generalizing s with
  | nil => exact hI
  | cons a rest ih => exact ih (tstep_inv hI a)

/-- Every state reachable from the initial state satisfies the invariant. -/
theorem trun_inv {T : Type} (fns : Nat → T × Option String) (sched : List Nat) :
    TInv fns (trun fns sched) :=
  tfold_inv sched (tinit_inv fns)

end V2V
namespace V2V

/-! ## Closed forms for the session-opening loop -/

/-- Session indices opened by `n` consecutive successful iterations
starting at disk `idx`. -/
def openedIds : Nat → Nat → List Nat
  | _, 0 => []
  | idx, n + 1 => idx :: openedIds (idx + 1) n

/-- Events of `n` consecutive successful open+ready iterations starting at
disk `idx`. -/
def openEvents : Nat → Nat → List SessEvent
  | _, 0 => []
  | idx, n + 1 =>
    SessEvent.openSess idx :: SessEvent.readySess idx :: openEvents (idx + 1) n

/-- A disk whose session opens and becomes ready. -/
def diskOk (d : DiskBehavior) : Prop := d.openErr = none ∧ d.readyErr = none

/-- On an all-good disk list the loop opens every disk in order and
returns all session ids with no close events. -/
theorem openLoop_good (disks : List DiskBehavior) (hok : ∀ d ∈ disks, diskOk d) :
    ∀ idx opened evs, openLoop disks idx opened evs
      = (.ok (opened ++ openedIds idx disks.length), evs ++ openEvents idx disks.length) := by
  induction disks with
  | nil => intro idx opened evs; simp [openLoop, openedIds, openEvents]
  | cons d rest ih =>
    intro idx opened evs
    obtain ⟨ho, hr⟩ := hok d (List.mem_cons_self d rest)
    have hok' : ∀ d ∈ rest, diskOk d := fun x hx => hok x (List.mem_cons_of_mem d hx)
    show openLoop (d :: rest) idx opened evs = _
    rw [openLoop]
    rw [ho, hr]
    dsimp only
    rw [ih hok' (idx + 1) (opened ++ [idx])
        ((evs ++ [SessEvent.openSess idx]) ++ [SessEvent.readySess idx])]
    simp [openedIds, openEvents, List.length_cons]

/-- If every disk before index `pre.length` is good and disk `pre.length`
fails to open, the loop returns a `sessionOpen` error carrying that index
and closes exactly the sessions opened so far. -/
theorem openLoop_openFail (pre : List DiskBehavior) (hok : ∀ x ∈ pre, diskOk x)
    (d : DiskBehavior) (e : String) (hde : d.openErr = some e)
    (rest : List DiskBehavior) :
    ∀ idx opened evs, openLoop (pre ++ d :: rest) idx opened evs
      = (.error (.sessionOpen (idx + pre.length) e),
         (evs ++ openEvents idx pre.length)
           ++ closeAll (opened ++ openedIds idx pre.length)) := by
  induction pre with
  | nil =>
    intro idx opened evs
    show openLoop (d :: rest) idx opened evs = _
    rw [openLoop, hde]
    simp [openEvents, openedIds]
  | cons p pre' ih =>
    intro idx opened evs
    obtain ⟨ho, hr⟩ := hok p (List.mem_cons_self p pre')
    have hok' : ∀ x ∈ pre', diskOk x := fun x hx => hok x (List.mem_cons_of_mem p hx)
    show openLoop (p :: (pre' ++ d :: rest)) idx opened evs = _
    rw [openLoop]
    rw [ho, hr]
    dsimp only
    rw [ih hok' (idx + 1) (opened ++ [idx])
        ((evs ++ [SessEvent.openSess idx]) ++ [SessEvent.readySess idx])]
    simp only [List.length_cons, openEvents, openedIds]
    have harith : idx + 1 + pre'.length = idx + (pre'.length + 1) := by omega
    rw [harith]
    simp [List.append_assoc]

/-- If every disk before index `pre.length` is good, disk `pre.length`
opens but never becomes ready, the loop returns a `sessionReady` error
carrying that index and closes every session opened so far including the
failing disk's. -/
theorem openLoop_readyFail (pre : List DiskBehavior) (hok : ∀ x ∈ pre, diskOk x)
    (d : DiskBehavior) (e : String) (hdo : d.openErr = none)
    (hdr : d.readyErr = some e) (rest : List DiskBehavior) :
    ∀ idx opened evs, openLoop (pre ++ d :: rest) idx opened evs
      = (.error (.sessionReady (idx + pre.length) e),
         ((evs ++ openEvents idx pre.length) ++ [SessEvent.openSess (idx + pre.length)])
           ++ closeAll ((opened ++ openedIds idx pre.length) ++ [idx + pre.length])) := by
  induction pre with
  | nil =>
    intro idx opened evs
    show openLoop (d :: rest) idx opened evs = _
    rw [openLoop, hdo, hdr]
    simp [openEvents, openedIds]
  | cons p pre' ih =>
    intro idx opened evs
    obtain ⟨ho, hr⟩ := hok p (List.mem_cons_self p pre')
    have hok' : ∀ x ∈ pre', diskOk x := fun x hx => hok x (List.mem_cons_of_mem p hx)
    show openLoop (p :: (pre' ++ d :: rest)) idx opened evs = _
    rw [openLoop]
    rw [ho, hr]
    dsimp only
    rw [ih hok' (idx + 1) (opened ++ [idx])
        ((evs ++ [SessEvent.openSess idx]) ++ [SessEvent.readySess idx])]
    simp only [List.length_cons, openEvents, openedIds]
    have harith : idx + 1 + pre'.length = idx + (pre'.length + 1) := by omega
    rw [harith]
    simp [List.append_assoc]

end V2V

namespace V2V

/-- Unfolding `closeAll` on a cons cell. -/
theorem closeAll_cons (a : Nat) (l : List Nat) :
    closeAll (a :: l) = SessEvent.closeSess a :: closeAll l := rfl

/-- Closing no sessions is the empty trace. -/
theorem closeAll_nil : closeAll [] = [] := rfl

/-- Event `openSess j` occurs in `openEvents idx n` exactly when `idx ≤ j < idx+n`. -/
theorem openEvents_count_open (j : Nat) : ∀ (n idx : Nat),
    (openEvents idx n).count (SessEvent.openSess j)
      = if idx ≤ j ∧ j < idx + n then 1 else 0 := by
  intro n
  induction n with
  | zero =>
    intro idx
    have hno : ¬(idx ≤ j ∧ j < idx) := by omega
    simp [openEvents, hno]
  | succ n ih =>
    intro idx
    simp [openEvents, List.count_cons, ih (idx + 1)]
    split_ifs <;> omega

/-- Event `readySess j` occurs in `openEvents idx n` exactly when `idx ≤ j < idx+n`. -/
theorem openEvents_count_ready (j : Nat) : ∀ (n idx : Nat),
    (openEvents idx n).count (SessEvent.readySess j)
      = if idx ≤ j ∧ j < idx + n then 1 else 0 := by
  intro n
  induction n with
  | zero =>
    intro idx
    have hno : ¬(idx ≤ j ∧ j < idx) := by omega
    simp [openEvents, hno]
  | succ n ih =>
    intro idx
    simp [openEvents, List.count_cons, ih (idx + 1)]
    split_ifs <;> omega

/-- Trace `openEvents` contains no close events. -/
theorem openEvents_count_close (j : Nat) : ∀ (n idx : Nat),
    (openEvents idx n).count (SessEvent.closeSess j) = 0 := by
  intro n
  induction n with
  | zero => intro idx; simp [openEvents]
  | succ n ih => intro idx; simp [openEvents, List.count_cons, ih (idx + 1)]

/-- Trace `openEvents` contains no tool-run events. -/
theorem openEvents_count_tool : ∀ (n idx : Nat),
    (openEvents idx n).count SessEvent.runTool = 0 := by
  intro n
  induction n with
  | zero => intro idx; simp [openEvents]
  | succ n ih => intro idx; simp [openEvents, List.count_cons, ih (idx + 1)]

/-- Closing a list of sessions closes `j` as often as `j` occurs in it. -/
theorem closeAll_count_close (j : Nat) (l : List Nat) :
    (closeAll l).count (SessEvent.closeSess j) = l.count j := by
  induction l with
  | nil => simp [closeAll_nil]
  | cons a l ih =>
    rw [closeAll_cons, List.count_cons, List.count_cons, ih]
    by_cases h : j = a <;> simp [h]

/-- Trace `closeAll` contains no open events. -/
theorem closeAll_count_open (j : Nat) (l : List Nat) :
    (closeAll l).count (SessEvent.openSess j) = 0 := by
  induction l with
  | nil => simp [closeAll_nil]
  | cons a l ih => rw [closeAll_cons, List.count_cons]; simp [ih]

/-- Trace `closeAll` contains no ready events. -/
theorem closeAll_count_ready (j : Nat) (l : List Nat) :
    (closeAll l).count (SessEvent.readySess j) = 0 := by
  induction l with
  | nil => simp [closeAll_nil]
  | cons a l ih => rw [closeAll_cons, List.count_cons]; simp [ih]

/-- Trace `closeAll` contains no tool-run events. -/
theorem closeAll_count_tool (l : List Nat) :
    (closeAll l).count SessEvent.runTool = 0 := by
  induction l with
  | nil => simp [closeAll_nil]
  | cons a l ih => rw [closeAll_cons, List.count_cons]; simp [ih]

/-- Index `j` occurs in `openedIds idx n` exactly when `idx ≤ j < idx+n`. -/
theorem openedIds_count (j : Nat) : ∀ (n idx : Nat),
    (openedIds idx n).count j = if idx ≤ j ∧ j < idx + n then 1 else 0 := by
  intro n
  induction n with
  | zero =>
    intro idx
    have hno : ¬(idx ≤ j ∧ j < idx) := by omega
    simp [openedIds, hno]
  | succ n ih =>
    intro idx
    simp [openedIds, List.count_cons, ih (idx + 1)]
    split_ifs <;> omega

/-- Every disk list is either all-good or has a first failing disk. -/
theorem disks_split (disks : List DiskBehavior) :
    (∀ d ∈ disks, diskOk d)
    ∨ ∃ pre d rest, disks = pre ++ d :: rest ∧ (∀ x ∈ pre, diskOk x) ∧ ¬diskOk d := by
  induction disks with
  | nil => left; intro d hd; cases hd
  | cons d rest ih =>
    by_cases hd : diskOk d
    · rcases ih with hall | ⟨pre, x, rest', heq, hpre, hx⟩
      · left
        intro y hy
        rcases List.mem_cons.mp hy with rfl | hy'
        · exact hd
        · exact hall y hy'
      · right
        refine ⟨d :: pre, x, rest', by rw [heq]; rfl, ?_, hx⟩
        intro y hy
        rcases List.mem_cons.mp hy with rfl | hy'
        · exact hd
        · exact hpre y hy'
    · right
      exact ⟨[], d, rest, rfl, fun y hy => absurd hy (List.not_mem_nil y), hd⟩

end V2V

namespace V2V

instance (d : DiskBehavior) : Decidable (diskOk d) :=
  inferInstanceAs (Decidable (d.openErr = none ∧ d.readyErr = none))

/-- Trace of `VirtInspector.Inspect` when every session opens and becomes
ready: opens in disk order with a readiness wait after each open, one tool
run, then every session closed by the deferred closer. -/
theorem virtInspect_good {α T : Type} (disks : List DiskBehavior)
    (hok : ∀ d ∈ disks, diskOk d)
    (toolRes : Except String α) (parseRes : α → Except String T) :
    (virtInspect disks toolRes parseRes).2
      = (openEvents 0 disks.length ++ [SessEvent.runTool])
          ++ closeAll (openedIds 0 disks.length) := by
  unfold virtInspect
  rw [openLoop_good disks hok 0 [] []]
  dsimp only
  cases toolRes with
  | error e => simp
  | ok out =>
    dsimp only
    cases hp : parseRes out with
    | error e2 => simp
    | ok v => simp

/-- Trace of `VirtInspector.Inspect` when the first failure is an open failure at
disk `pre.length`: error annotated with that index, sessions `0..pre.length-1`
closed, the tool never runs. -/
theorem virtInspect_openFail {α T : Type} (pre rest : List DiskBehavior)
    (hpre : ∀ x ∈ pre, diskOk x) (d : DiskBehavior) (e : String)
    (hde : d.openErr = some e)
    (toolRes : Except String α) (parseRes : α → Except String T) :
    virtInspect (pre ++ d :: rest) toolRes parseRes
      = (.error (.sessionOpen pre.length e),
         openEvents 0 pre.length ++ closeAll (openedIds 0 pre.length)) := by
  unfold virtInspect
  rw [openLoop_openFail pre hpre d e hde rest 0 [] []]
  simp

/-- Trace of `VirtInspector.Inspect` when the first failure is a readiness failure at
disk `pre.length`: error annotated with that index, sessions `0..pre.length`
(including the failing disk's) closed, the tool never runs. -/
theorem virtInspect_readyFail {α T : Type} (pre rest : List DiskBehavior)
    (hpre : ∀ x ∈ pre, diskOk x) (d : DiskBehavior) (e : String)
    (hdo : d.openErr = none) (hdr : d.readyErr = some e)
    (toolRes : Except String α) (parseRes : α → Except String T) :
    virtInspect (pre ++ d :: rest) toolRes parseRes
      = (.error (.sessionReady pre.length e),
         (openEvents 0 pre.length ++ [SessEvent.openSess pre.length])
           ++ closeAll (openedIds 0 pre.length ++ [pre.length])) := by
  unfold virtInspect
  rw [openLoop_readyFail pre hpre d e hdo hdr rest 0 [] []]
  simp

end V2V

namespace V2V

/-- C6: for every call to `VirtInspector.Inspect` — whatever the disks'
open/readiness behaviour, the external tool's result, and the parse
result — every session opened during the call is closed exactly once
before the call returns: for each disk index the trace holds as many
`closeSess` events as `openSess` events, and at most one `openSess`. -/
theorem virt_inspect_close_balanced {α T : Type} (disks : List DiskBehavior)
    (toolRes : Except String α) (parseRes : α → Except String T) (j : Nat) :
    ((virtInspect disks toolRes parseRes).2).count (SessEvent.closeSess j)
      = ((virtInspect disks toolRes parseRes).2).count (SessEvent.openSess j)
    ∧ ((virtInspect disks toolRes parseRes).2).count (SessEvent.openSess j) ≤ 1 := by
  rcases disks_split disks with hall | ⟨pre, d, rest, heq, hpre, hfail⟩
  · rw [virtInspect_good disks hall toolRes parseRes]
    constructor <;>
      (simp [List.count_append, openEvents_count_open, openEvents_count_close,
         closeAll_count_close, closeAll_count_open, openedIds_count];
       try split_ifs <;> omega)
  · subst heq
    rcases ho : d.openErr with _ | e
    · rcases hr : d.readyErr with _ | e2
      · exact absurd ⟨ho, hr⟩ hfail
      · rw [virtInspect_readyFail pre rest hpre d e2 ho hr toolRes parseRes]
        constructor <;>
          (simp [List.count_append, List.count_cons, List.count_nil,
             openEvents_count_open, openEvents_count_close,
             closeAll_count_close, closeAll_count_open, openedIds_count];
           try split_ifs <;> omega)
    · rw [virtInspect_openFail pre rest hpre d e ho toolRes parseRes]
      constructor <;>
        (simp [List.count_append, openEvents_count_open, openEvents_count_close,
           closeAll_count_close, closeAll_count_open, openedIds_count];
         try split_ifs <;> omega)

end V2V

namespace V2V

/-- C5: in the per-disk session mode, when every disk before index
`pre.length` opens and becomes ready and disk `pre.length` fails (to open,
or to become ready), `VirtInspector.Inspect` returns an error annotated
with index `pre.length` and the exact event trace shows: sessions opened
in disk order with a readiness wait after each open, every session for an
index `< pre.length` closed exactly once, no session for any later disk
ever opened, the failing disk's session never left open (as many closes as
opens for it), and the external tool never invoked. -/
theorem virt_inspect_rollback {α T : Type} (pre rest : List DiskBehavior)
    (d : DiskBehavior) (toolRes : Except String α) (parseRes : α → Except String T)
    (hpre : ∀ x ∈ pre, diskOk x) (hfail : ¬diskOk d) :
    ∃ e,
      ((virtInspect (pre ++ d :: rest) toolRes parseRes).1
            = .error (.sessionOpen pre.length e)
          ∧ (virtInspect (pre ++ d :: rest) toolRes parseRes).2
            = openEvents 0 pre.length ++ closeAll (openedIds 0 pre.length)
        ∨ (virtInspect (pre ++ d :: rest) toolRes parseRes).1
            = .error (.sessionReady pre.length e)
          ∧ (virtInspect (pre ++ d :: rest) toolRes parseRes).2
            = (openEvents 0 pre.length ++ [SessEvent.openSess pre.length])
                ++ closeAll (openedIds 0 pre.length ++ [pre.length]))
      ∧ (∀ j, j < pre.length →
          ((virtInspect (pre ++ d :: rest) toolRes parseRes).2).count (SessEvent.openSess j) = 1
          ∧ ((virtInspect (pre ++ d :: rest) toolRes parseRes).2).count (SessEvent.readySess j) = 1
          ∧ ((virtInspect (pre ++ d :: rest) toolRes parseRes).2).count (SessEvent.closeSess j) = 1)
      ∧ (∀ j, pre.length < j →
          ((virtInspect (pre ++ d :: rest) toolRes parseRes).2).count (SessEvent.openSess j) = 0)
      ∧ ((virtInspect (pre ++ d :: rest) toolRes parseRes).2).count (SessEvent.closeSess pre.length)
          = ((virtInspect (pre ++ d :: rest) toolRes parseRes).2).count (SessEvent.openSess pre.length)
      ∧ ((virtInspect (pre ++ d :: rest) toolRes parseRes).2).count SessEvent.runTool = 0 := by
  rcases ho : d.openErr with _ | e
  · rcases hr : d.readyErr with _ | e2
    · exact absurd ⟨ho, hr⟩ hfail
    · refine ⟨e2, Or.inr ?_, ?_, ?_, ?_, ?_⟩ <;>
        rw [virtInspect_readyFail pre rest hpre d e2 ho hr toolRes parseRes]
      · exact ⟨rfl, rfl⟩
      · intro j hj
        refine ⟨?_, ?_, ?_⟩ <;>
          (simp [List.count_append, List.count_cons, List.count_nil,
             openEvents_count_open, openEvents_count_ready, openEvents_count_close,
             closeAll_count_close, closeAll_count_open, closeAll_count_ready,
             openedIds_count];
           (try split_ifs) <;> omega)
      · intro j hj
        simp [List.count_append, List.count_cons, List.count_nil,
          openEvents_count_open, closeAll_count_open]
        omega
      · simp [List.count_append, List.count_cons, List.count_nil,
          openEvents_count_open, openEvents_count_close,
          closeAll_count_close, closeAll_count_open, openedIds_count]
      · simp [List.count_append, List.count_cons, List.count_nil,
          openEvents_count_tool, closeAll_count_tool]
  · refine ⟨e, Or.inl ?_, ?_, ?_, ?_, ?_⟩ <;>
      rw [virtInspect_openFail pre rest hpre d e ho toolRes parseRes]
    · exact ⟨rfl, rfl⟩
    · intro j hj
      refine ⟨?_, ?_, ?_⟩ <;>
        (simp [List.count_append, List.count_cons, List.count_nil,
           openEvents_count_open, openEvents_count_ready, openEvents_count_close,
           closeAll_count_close, closeAll_count_open, closeAll_count_ready,
           openedIds_count];
         (try split_ifs) <;> omega)
    · intro j hj
      simp [List.count_append, List.count_cons, List.count_nil,
        openEvents_count_open, closeAll_count_open]
      omega
    · simp [List.count_append, List.count_cons, List.count_nil,
        openEvents_count_open, openEvents_count_close,
        closeAll_count_close, closeAll_count_open, openedIds_count]
    · simp [List.count_append, List.count_cons, List.count_nil,
        openEvents_count_tool, closeAll_count_tool]

end V2V

namespace V2V

/-! ## Concrete fixtures used in witnesses -/

/-- Work-function behaviours for witness runs of the tracker machine:
thread `i`'s work returns `(100 + i, nil)`. -/
def exFns : Nat → Nat × Option String := fun i => (100 + i, none)

/-- The spec's concrete scenario key `{VM="vm1", Snapshot="snap1"}`. -/
def exKey : CacheKey := ⟨"vm1", "snap1"⟩

/-- A volatile cache holding 5 for `exKey`. -/
def exMemHit : MemCache Nat := fun s => if s = "vm1:snap1" then some 5 else none

/-- An empty volatile cache. -/
def exMemEmpty : MemCache Nat := fun _ => none

/-- A durable store holding 7 for every key, writes succeeding. -/
def exDBHit : DBModel Nat := ⟨fun _ => (some 7, none), fun _ _ => none⟩

/-- An empty durable store whose writes fail. -/
def exDBMiss : DBModel Nat := ⟨fun _ => (none, none), fun _ _ => some "db write failed"⟩

/-- A durable store whose reads fail. -/
def exDBReadErr : DBModel Nat :=
  ⟨fun _ => (none, some "db read failed"), fun _ _ => some "db write failed"⟩

/-- C2: `InspectWithVirt` looks the volatile tier up first and returns
immediately on a hit with no external activity; the executor's work
function re-checks the volatile tier and returns on a hit without touching
the durable store; on a volatile miss with a durable hit the stored value
is returned, the external inspection is never invoked (no `inspectCall`
event), and the value is copied into the volatile tier. -/
theorem inspect_lookup_order {T : Type} (db : DBModel T) (inspectRes : Except String T)
    (key : CacheKey) (mem : MemCache T) :
    (∀ v, memGet mem key = some v →
        inspectWithVirt (some db) inspectRes key mem = ((some v, none), mem, []))
    ∧ (∀ v, memGet mem key = some v →
        virtWorkFn (some db) inspectRes key mem = ((some v, none), mem, []))
    ∧ (∀ v, memGet mem key = none → db.get key.toKeyString = (some v, none) →
        inspectWithVirt (some db) inspectRes key mem
            = ((some v, none), memSet mem key v, [InspEvent.dbGet])
        ∧ memGet (memSet mem key v) key = some v) := by
  refine ⟨?_, ?_, ?_⟩
  · intro v hv
    simp [inspectWithVirt, hv]
  · intro v hv
    simp [virtWorkFn, hv]
  · intro v hm hd
    constructor
    · simp [inspectWithVirt, virtWorkFn, hm, hd]
    · simp [memGet, memSet]

/-- Witness for C2 at the spec's concrete scenario. -/
theorem inspect_lookup_order_witness :
    inspectWithVirt (some exDBHit) (.error "boom") exKey exMemHit
      = ((some 5, none), exMemHit, [])
    ∧ inspectWithVirt (some exDBHit) (.error "boom") exKey exMemEmpty
      = ((some 7, none), memSet exMemEmpty exKey 7, [InspEvent.dbGet]) :=
  ⟨(inspect_lookup_order exDBHit (.error "boom") exKey exMemHit).1 5 rfl,
   ((inspect_lookup_order exDBHit (.error "boom") exKey exMemEmpty).2.2 7 rfl rfl).1⟩

end V2V

namespace V2V

/-- C3: when the executor's work function reaches the external inspection
and it fails with error `e` (any failure inside session setup, tool run or
parsing surfaces as this error), `InspectWithVirt` returns `(nil, e)`
unchanged, the volatile cache is exactly as before, the durable store is
never written; and in the tracker machine every concurrent waiter receives
exactly the pair — including the error component — produced by its call's
executor. -/
theorem inspect_error_propagation {T : Type} (db : Option (DBModel T)) (e : String)
    (key : CacheKey) (mem : MemCache T)
    (hm : memGet mem key = none)
    (hmiss : ∀ d, db = some d →
      (d.get key.toKeyString).2 ≠ none ∨ d.get key.toKeyString = (none, none)) :
    (inspectWithVirt db (.error e) key mem).1 = (none, some e)
    ∧ (inspectWithVirt db (.error e) key mem).2.1 = mem
    ∧ InspEvent.dbSet ∉ (inspectWithVirt db (.error e) key mem).2.2
    ∧ ∀ (fns : Nat → T × Option String) (sched : List Nat) (i cid : Nat)
        (v : T) (e' : Option String),
        (trun fns sched).pcs i = .finished cid v e' true →
        ∃ r, (trun fns sched).calls cid = some r ∧ r.owner ≠ i ∧ (v, e') = fns r.owner := by
  have hout : inspectWithVirt db (.error e) key mem
        = ((none, some e), mem, [InspEvent.inspectCall])
      ∨ inspectWithVirt db (.error e) key mem
        = ((none, some e), mem, [InspEvent.dbGet, InspEvent.inspectCall]) := by
    cases db with
    | none =>
      left
      simp [inspectWithVirt, virtWorkFn, hm]
    | some d =>
      right
      rcases hmiss d rfl with hne | heq
      · rcases hg : d.get key.toKeyString with ⟨x, er⟩
        cases er with
        | none => rw [hg] at hne; simp at hne
        | some er0 => simp [inspectWithVirt, virtWorkFn, hm, hg]
      · simp [inspectWithVirt, virtWorkFn, hm, heq]
  have htracker : ∀ (fns : Nat → T × Option String) (sched : List Nat) (i cid : Nat)
      (v : T) (e' : Option String),
      (trun fns sched).pcs i = .finished cid v e' true →
      ∃ r, (trun fns sched).calls cid = some r ∧ r.owner ≠ i ∧ (v, e') = fns r.owner := by
    intro fns sched i cid v e' hp
    have hI := trun_inv fns sched
    obtain ⟨r, hr, hro, hres, hdn⟩ := hI.finTInv i cid v e' hp
    rcases hI.resultOk cid r hr with h0 | h0
    · rw [h0] at hres; exact Option.noConfusion hres
    · rw [h0] at hres
      exact ⟨r, hr, hro, (Option.some.inj hres).symm⟩
  rcases hout with h | h <;> rw [h] <;> exact ⟨rfl, rfl, by simp, htracker⟩

/-- Witness for C3: durable store empty, inspection fails. -/
theorem inspect_error_propagation_witness :
    (inspectWithVirt (some exDBMiss) (.error "inspect failed") exKey exMemEmpty).1
      = (none, some "inspect failed")
    ∧ (inspectWithVirt (some exDBMiss) (.error "inspect failed") exKey exMemEmpty).2.1
      = exMemEmpty :=
  ⟨(inspect_error_propagation (some exDBMiss) "inspect failed" exKey exMemEmpty rfl
      (fun d hd => by cases hd; right; rfl)).1,
   (inspect_error_propagation (some exDBMiss) "inspect failed" exKey exMemEmpty rfl
      (fun d hd => by cases hd; right; rfl)).2.1⟩

/-- C4: durable-store errors are non-fatal.  A durable read error is
treated exactly like a miss — the computation proceeds to full compute and
its fresh value is returned and placed in the volatile tier; a durable
write error after a successful inspection does not change the result — the
call still returns `(value, nil)` and the volatile tier still holds the
value. -/
theorem inspect_durable_errors_nonfatal {T : Type} (d : DBModel T) (v : T)
    (key : CacheKey) (mem : MemCache T) (hm : memGet mem key = none) :
    (∀ x er, d.get key.toKeyString = (x, some er) →
        (inspectWithVirt (some d) (.ok v) key mem).1 = (some v, none)
        ∧ memGet (inspectWithVirt (some d) (.ok v) key mem).2.1 key = some v
        ∧ InspEvent.inspectCall ∈ (inspectWithVirt (some d) (.ok v) key mem).2.2)
    ∧ (∀ er, d.get key.toKeyString = (none, none) →
        d.setErr key.toKeyString v = some er →
        (inspectWithVirt (some d) (.ok v) key mem).1 = (some v, none)
        ∧ memGet (inspectWithVirt (some d) (.ok v) key mem).2.1 key = some v) := by
  constructor
  · intro x er hg
    have hout : inspectWithVirt (some d) (.ok v) key mem
        = ((some v, none), memSet mem key v,
           [InspEvent.dbGet, InspEvent.inspectCall, InspEvent.dbSet]) := by
      cases hs : d.setErr key.toKeyString v with
      | none => simp [inspectWithVirt, virtWorkFn, hm, hg, hs]
      | some e2 => simp [inspectWithVirt, virtWorkFn, hm, hg, hs]
    rw [hout]
    exact ⟨rfl, by simp [memGet, memSet], by simp⟩
  · intro er hg hs
    have hout : inspectWithVirt (some d) (.ok v) key mem
        = ((some v, none), memSet mem key v,
           [InspEvent.dbGet, InspEvent.inspectCall, InspEvent.dbSet]) := by
      simp [inspectWithVirt, virtWorkFn, hm, hg, hs]
    rw [hout]
    exact ⟨rfl, by simp [memGet, memSet]⟩

/-- Witness for C4: a failing-read store and a failing-write store. -/
theorem inspect_durable_errors_nonfatal_witness :
    ((inspectWithVirt (some exDBReadErr) (.ok 9) exKey exMemEmpty).1 = (some 9, none)
      ∧ memGet (inspectWithVirt (some exDBReadErr) (.ok 9) exKey exMemEmpty).2.1 exKey = some 9
      ∧ InspEvent.inspectCall ∈ (inspectWithVirt (some exDBReadErr) (.ok 9) exKey exMemEmpty).2.2)
    ∧ ((inspectWithVirt (some exDBMiss) (.ok 9) exKey exMemEmpty).1 = (some 9, none)
      ∧ memGet (inspectWithVirt (some exDBMiss) (.ok 9) exKey exMemEmpty).2.1 exKey = some 9) :=
  ⟨(inspect_durable_errors_nonfatal exDBReadErr 9 exKey exMemEmpty rfl).1
      none "db read failed" rfl,
   (inspect_durable_errors_nonfatal exDBMiss 9 exKey exMemEmpty rfl).2
      "db write failed" rfl rfl⟩

/-- C7: after a successful full-compute for a key (external inspection ran
and returned `v`), the volatile cache holds `v` for the key, and an
immediately subsequent call with the same key — with any durable store and
any inspection behaviour — returns `v` from the volatile tier with no
external activity at all. -/
theorem inspect_cache_population {T : Type} (db : Option (DBModel T)) (v : T)
    (key : CacheKey) (mem : MemCache T) (hm : memGet mem key = none)
    (hmiss : ∀ d, db = some d →
      (d.get key.toKeyString).2 ≠ none ∨ d.get key.toKeyString = (none, none)) :
    (inspectWithVirt db (.ok v) key mem).1 = (some v, none)
    ∧ memGet (inspectWithVirt db (.ok v) key mem).2.1 key = some v
    ∧ InspEvent.inspectCall ∈ (inspectWithVirt db (.ok v) key mem).2.2
    ∧ ∀ (db2 : Option (DBModel T)) (inspectRes2 : Except String T),
        inspectWithVirt db2 inspectRes2 key (inspectWithVirt db (.ok v) key mem).2.1
          = ((some v, none), (inspectWithVirt db (.ok v) key mem).2.1, []) := by
  have hout : ∃ evs, inspectWithVirt db (.ok v) key mem
      = ((some v, none), memSet mem key v, evs) ∧ InspEvent.inspectCall ∈ evs := by
    cases db with
    | none =>
      exact ⟨[InspEvent.inspectCall], by simp [inspectWithVirt, virtWorkFn, hm], by simp⟩
    | some d =>
      rcases hmiss d rfl with hne | heq
      · rcases hg : d.get key.toKeyString with ⟨x, er⟩
        cases er with
        | none => rw [hg] at hne; simp at hne
        | some er0 =>
          refine ⟨[InspEvent.dbGet, InspEvent.inspectCall, InspEvent.dbSet], ?_, by simp⟩
          cases hs : d.setErr key.toKeyString v with
          | none => simp [inspectWithVirt, virtWorkFn, hm, hg, hs]
          | some e2 => simp [inspectWithVirt, virtWorkFn, hm, hg, hs]
      · refine ⟨[InspEvent.dbGet, InspEvent.inspectCall, InspEvent.dbSet], ?_, by simp⟩
        cases hs : d.setErr key.toKeyString v with
        | none => simp [inspectWithVirt, virtWorkFn, hm, heq, hs]
        | some e2 => simp [inspectWithVirt, virtWorkFn, hm, heq, hs]
  obtain ⟨evs, he, hin⟩ := hout
  have hget : memGet (memSet mem key v) key = some v := by simp [memGet, memSet]
  refine ⟨by rw [he], by rw [he]; exact hget, by rw [he]; exact hin, ?_⟩
  intro db2 inspectRes2
  rw [he]
  simp [inspectWithVirt, hget]

/-- Witness for C7: memory-only configuration, successful inspection. -/
theorem inspect_cache_population_witness :
    (inspectWithVirt (none : Option (DBModel Nat)) (.ok 3) exKey exMemEmpty).1 = (some 3, none)
    ∧ memGet (inspectWithVirt (none : Option (DBModel Nat)) (.ok 3) exKey exMemEmpty).2.1 exKey
        = some 3
    ∧ inspectWithVirt (some exDBHit) (.error "must not run") exKey
        (inspectWithVirt (none : Option (DBModel Nat)) (.ok 3) exKey exMemEmpty).2.1
      = ((some 3, none),
         (inspectWithVirt (none : Option (DBModel Nat)) (.ok 3) exKey exMemEmpty).2.1, []) :=
  ⟨(inspect_cache_population (none : Option (DBModel Nat)) 3 exKey exMemEmpty rfl
      (fun d hd => by cases hd)).1,
   (inspect_cache_population (none : Option (DBModel Nat)) 3 exKey exMemEmpty rfl
      (fun d hd => by cases hd)).2.1,
   (inspect_cache_population (none : Option (DBModel Nat)) 3 exKey exMemEmpty rfl
      (fun d hd => by cases hd)).2.2.2 (some exDBHit) (.error "must not run")⟩

end V2V

namespace V2V

/-- Killing the same process twice is the same as killing it once. -/
theorem killWait_idem (st : OSState) (p : Nat) :
    killWait (killWait st p) p = killWait st p := by
  simp [killWait, List.filter_filter]

/-- Removing the same file twice is the same as removing it once. -/
theorem removeFile_idem (st : OSState) (f : String) :
    removeFile (removeFile st f) f = removeFile st f := by
  simp [removeFile, List.filter_filter]

/-- Process kill and file removal touch different resources. -/
theorem killWait_removeFile_comm (st : OSState) (p : Nat) (f : String) :
    killWait (removeFile st f) p = removeFile (killWait st p) f := rfl

/-- C8: `V2VSession.Close` is idempotent and safe.  On a nil receiver it
does nothing; a second `Close` of the same handle changes nothing beyond
the first (never a double free — at worst it re-attempts the termination
and removal, whose errors the code ignores); and on a handle whose setup
only partially completed (no process) it only removes the auth artifact.
The function is total over every shape of handle and OS state, which is
the embedding of "never panics". -/
theorem session_close_safe :
    (∀ st : OSState, sessionClose none st = st)
    ∧ (∀ (s : V2VSession) (st : OSState),
        sessionClose (some s) (sessionClose (some s) st) = sessionClose (some s) st)
    ∧ (∀ (url auth : String) (st : OSState),
        sessionClose (some ⟨url, none, auth⟩) st
          = if auth = "" then st else removeFile st auth) := by
  refine ⟨fun st => rfl, ?_, fun url auth st => rfl⟩
  intro s st
  rcases s with ⟨url, cmd, auth⟩
  cases cmd with
  | none =>
    by_cases h : auth = "" <;> simp [sessionClose, h, removeFile_idem]
  | some p =>
    by_cases h : auth = "" <;>
      simp [sessionClose, h, killWait_idem, removeFile_idem, killWait_removeFile_comm]

/-- C10: the canonical string form of `CacheKey` is not injective — the
distinct keys `{VMName: "a:b", SnapshotName: "c"}` and
`{VMName: "a", SnapshotName: "b:c"}` render as the same string, hence the
same hash for any hash function, and a value cached under the first key is
served for the second. -/
theorem cacheKey_string_collision :
    (⟨"a:b", "c"⟩ : CacheKey) ≠ (⟨"a", "b:c"⟩ : CacheKey)
    ∧ CacheKey.toKeyString ⟨"a:b", "c"⟩ = CacheKey.toKeyString ⟨"a", "b:c"⟩
    ∧ (∀ h : String → String,
        CacheKey.hashWith h ⟨"a:b", "c"⟩ = CacheKey.hashWith h ⟨"a", "b:c"⟩)
    ∧ (∀ (v : Nat) (mem : MemCache Nat),
        memGet (memSet mem ⟨"a:b", "c"⟩ v) ⟨"a", "b:c"⟩ = some v) := by
  refine ⟨by decide, by decide, fun h => rfl, fun v mem => ?_⟩
  show (if ("a" ++ ":" ++ "b:c") = ("a:b" ++ ":" ++ "c") then some v
        else mem ("a" ++ ":" ++ "b:c")) = some v
  rw [if_pos (by decide)]

end V2V

namespace V2V

/-- C1: in every interleaved execution of `inflightTracker.do` (any number
of threads, any schedule, one key): (i) a caller returning
`wasWaiter = false` is the registered owner of its call record and returns
exactly the pair its own work function produces; (ii) a caller returning
`wasWaiter = true` never registered (owns no record, so its work function
never ran) and returns exactly the stored pair of the record it joined,
which is the pair produced by that record's unique executor; (iii) all
callers that joined the same call record observe an identical
`(value, error)` pair; (iv) records have pairwise-distinct owners — for
the set of callers coalesced on one record, the work function executed
exactly once, by the first caller, which registered the record. -/
theorem inflight_dedup {T : Type} (fns : Nat → T × Option String) (sched : List Nat) :
    (∀ i cid v e, (trun fns sched).pcs i = .finished cid v e false →
      ∃ r, (trun fns sched).calls cid = some r ∧ r.owner = i
        ∧ r.result = some (v, e) ∧ (v, e) = fns i)
    ∧ (∀ i cid v e, (trun fns sched).pcs i = .finished cid v e true →
      ∃ r, (trun fns sched).calls cid = some r ∧ r.owner ≠ i
        ∧ r.result = some (v, e) ∧ (v, e) = fns r.owner)
    ∧ (∀ i j cid v e b v' e' b',
        (trun fns sched).pcs i = .finished cid v e b →
        (trun fns sched).pcs j = .finished cid v' e' b' →
        v = v' ∧ e = e')
    ∧ (∀ cid cid' r r', (trun fns sched).calls cid = some r →
        (trun fns sched).calls cid' = some r' → r.owner = r'.owner → cid = cid') := by
  have hI := trun_inv fns sched
  have hstored : ∀ i cid v e b, (trun fns sched).pcs i = .finished cid v e b →
      ∃ r, (trun fns sched).calls cid = some r ∧ r.result = some (v, e) := by
    intro i cid v e b hp
    cases b with
    | false =>
      obtain ⟨r, hr, _, hres⟩ := hI.finFInv i cid v e hp
      exact ⟨r, hr, hres⟩
    | true =>
      obtain ⟨r, hr, _, hres, _⟩ := hI.finTInv i cid v e hp
      exact ⟨r, hr, hres⟩
  refine ⟨?_, ?_, ?_, hI.ownerInj⟩
  · intro i cid v e hp
    obtain ⟨r, hr, hro, hres⟩ := hI.finFInv i cid v e hp
    rcases hI.resultOk cid r hr with h0 | h0
    · rw [h0] at hres; exact Option.noConfusion hres
    · refine ⟨r, hr, hro, hres, ?_⟩
      rw [h0] at hres
      rw [← hro]
      exact (Option.some.inj hres).symm
  · intro i cid v e hp
    obtain ⟨r, hr, hro, hres, hdn⟩ := hI.finTInv i cid v e hp
    rcases hI.resultOk cid r hr with h0 | h0
    · rw [h0] at hres; exact Option.noConfusion hres
    · refine ⟨r, hr, hro, hres, ?_⟩
      rw [h0] at hres
      exact (Option.some.inj hres).symm
  · intro i j cid v e b v' e' b' hpi hpj
    obtain ⟨r, hr, hres⟩ := hstored i cid v e b hpi
    obtain ⟨r', hr', hres'⟩ := hstored j cid v' e' b' hpj
    rw [hr] at hr'
    have hrr : r = r' := Option.some.inj hr'
    rw [← hrr] at hres'
    rw [hres] at hres'
    have := Option.some.inj hres'
    exact ⟨congrArg Prod.fst this, congrArg Prod.snd this⟩

/-- Witness for C1: two threads race on one key; thread 0 registers and
executes, thread 1 waits; both finish with thread 0's pair. -/
theorem inflight_dedup_witness :
    (∃ r, (trun exFns [0, 1, 0, 0, 1, 0, 1]).calls 0 = some r ∧ r.owner = 0
        ∧ r.result = some (100, none) ∧ ((100 : Nat), (none : Option String)) = exFns 0)
    ∧ (∃ r, (trun exFns [0, 1, 0, 0, 1, 0, 1]).calls 0 = some r ∧ r.owner ≠ 1
        ∧ r.result = some (100, none)
        ∧ ((100 : Nat), (none : Option String)) = exFns r.owner) :=
  ⟨(inflight_dedup exFns [0, 1, 0, 0, 1, 0, 1]).1 0 0 100 none (by decide),
   (inflight_dedup exFns [0, 1, 0, 0, 1, 0, 1]).2.1 1 0 100 none (by decide)⟩

end V2V

namespace V2V

/-- Counterexample to C9 as stated: in the Go code `wg.Done()` (line 393)
fires before the mutex-protected `delete` (lines 396-398), so there IS a
moment at which a new caller finds a stale, already-completed entry.
After schedule `[0,0,0]` (thread 0 registered, ran its work, signalled
completion — but has not yet deleted the key) the table still holds the
record and the record is done; a new caller (thread 1) stepping now finds
that entry and becomes its waiter, and then returns the stored pair
without re-checking any cache or re-executing (no new record is ever
allocated for it). -/
theorem inflight_stale_entry_window :
    (trun exFns [0, 0, 0]).table = some 0
    ∧ ((trun exFns [0, 0, 0]).calls 0).map CallRec.done = some true
    ∧ (trun exFns [0, 0, 0, 1]).pcs 1 = PC.waiting 0
    ∧ (trun exFns [0, 0, 0, 1, 1]).pcs 1 = PC.finished 0 100 none true
    ∧ (trun exFns [0, 0, 0, 1, 1]).nextCid = 1 := by
  decide

/-- C9 amended: the record is removed from the table by the executor's
mutex-protected delete after the completion signal, not atomically with
it.  (i) The executor's removal step leaves the key absent from the table;
(ii) a caller that found a completed-but-not-yet-removed entry returns
exactly that record's stored `(value, error)` pair — it may skip
re-checking the caches, but observes the very pair the executor computed;
(iii) once the key is absent, a new caller registers a fresh record and
re-executes the work function, so a request arriving after removal always
re-checks the caches and may re-execute. -/
theorem inflight_removal_after_completion {T : Type} (fns : Nat → T × Option String)
    (sched : List Nat) (i cid : Nat) :
    ((trun fns sched).pcs i = .removing cid →
      (tstep fns (trun fns sched) i).table = none)
    ∧ (∀ r ve, (trun fns sched).pcs i = .waiting cid →
        (trun fns sched).calls cid = some r → r.done = true → r.result = some ve →
        (tstep fns (trun fns sched) i).pcs i = .finished cid ve.1 ve.2 true)
    ∧ ((trun fns sched).pcs i = .start → (trun fns sched).table = none →
        (tstep fns (trun fns sched) i).table = some (trun fns sched).nextCid
        ∧ (tstep fns (trun fns sched) i).pcs i = .running (trun fns sched).nextCid
        ∧ (tstep fns (trun fns sched) i).calls (trun fns sched).nextCid
            = some ⟨i, none, false⟩) := by
  have hI := trun_inv fns sched
  refine ⟨?_, ?_, ?_⟩
  · intro h
    obtain ⟨rr, hrr, hown, hresr, hdoner, htab⟩ := hI.remInv i cid h
    simp [tstep, h, hrr, hresr]
  · intro r ve h hr hd hres
    simp [tstep, h, hr, hd, hres, upd_self]
  · intro h ht
    refine ⟨?_, ?_, ?_⟩ <;> simp [tstep, h, ht, upd_self]

/-- Witness for the amended C9: the executor's delete step empties the
table; the stale-window waiter returns the stored pair; a fresh caller
after removal re-registers. -/
theorem inflight_removal_after_completion_witness :
    (tstep exFns (trun exFns [0, 0, 0]) 0).table = none
    ∧ (tstep exFns (trun exFns [0, 0, 0, 1]) 1).pcs 1 = PC.finished 0 100 none true
    ∧ (tstep exFns (trun exFns [0, 0, 0, 0]) 1).table = some 1 := by
  refine ⟨(inflight_removal_after_completion exFns [0, 0, 0] 0 0).1 (by decide),
    (inflight_removal_after_completion exFns [0, 0, 0, 1] 1 0).2.1
      ⟨0, some (100, none), true⟩ (100, none) (by decide) (by decide) (by decide) (by decide),
    ?_⟩
  have h := ((inflight_removal_after_completion exFns [0, 0, 0, 0] 1 0).2.2
    (by decide) (by decide)).1
  rw [show (trun exFns [0, 0, 0, 0]).nextCid = 1 from by decide] at h
  exact h

end V2V

namespace V2V

/-- Two good disks followed by one whose session fails to open, then one
more disk that must never be touched. -/
def exPre : List DiskBehavior := [⟨none, none⟩, ⟨none, none⟩]

/-- A disk whose `OpenWithNBDKitVDDK` fails. -/
def exBadOpen : DiskBehavior := ⟨some "open failed", none⟩

/-- The disk after the failing one. -/
def exRest : List DiskBehavior := [⟨none, none⟩]

/-- Witness for C5: with disks `[d0, d1, dbad, d2]` where opening `dbad`
fails, the sessions for `d0` and `d1` are each closed once and the tool
never runs. -/
theorem virt_inspect_rollback_witness :
    ((virtInspect (exPre ++ exBadOpen :: exRest) (Except.ok 0)
        (fun _ : Nat => Except.ok 0)).2).count (SessEvent.closeSess 0) = 1
    ∧ ((virtInspect (exPre ++ exBadOpen :: exRest) (Except.ok 0)
        (fun _ : Nat => Except.ok 0)).2).count SessEvent.runTool = 0 := by
  obtain ⟨e, hmain, hlt, hgt, hbal, htool⟩ :=
    virt_inspect_rollback exPre exRest exBadOpen (Except.ok 0)
      (fun _ : Nat => Except.ok 0) (by decide) (by decide)
  exact ⟨(hlt 0 (by decide)).2.2, htool⟩

end V2V
